import Mathlib

/-!
# amigo-secreto: the pairing engine and its request handlers

A shallow embedding of `src/main.go` (Redis store) and `src/backend/main.go`
(file store).  The two files share `drawAll`, `listHandler`, `resultHandler`
and `addHandler` up to the texts of their error messages; they differ in
`resetHandler` (gated by a fixed shared secret in `src/main.go` only), in the
link written by `listHandler` and in the start-up code.

Conventions of the embedding.

* The global `state` guarded by `mu` is passed explicitly: a handler takes the
  state before the request and returns the response with the state after it.
* `math/rand` is a tape of raw draws with a cursor (`Rand`); `rand.Shuffle` is
  the Fisher-Yates loop of the Go library run on that tape.
* The `for { ... }` loop of `drawAll` is run with a bound on the number of
  trials; `none` means that the bound was reached before a trial was accepted.
* `golang.org/x/crypto/bcrypt` is a parameter (`Bcrypt`): its digest and its
  comparison are not re-implemented, its length limit of 72 bytes is.
* A response is its status code and, where the handler writes one, the
  receiver of the JSON body; the texts of the error messages are left out.
* The slice `res` of `listHandler` keeps the difference between Go's nil slice
  and an empty one (`none` is nil), because `encoding/json` writes the first as
  `null` and the second as `[]`.
-/

namespace AmigoSecreto

/-! ## Data model -/

/-- The struct `Pair`; `Password` holds the bcrypt hash, `""` when unset. -/
structure Pair where
  Giver : String
  Receiver : String
  Password : String
  HasAccess : Bool
deriving DecidableEq, Repr

/-- The struct `State`. -/
structure State where
  Members : List String
  Pairs : List Pair
deriving DecidableEq, Repr

/-- What a handler writes: the status code and the receiver of a JSON body. -/
structure Response where
  status : Nat
  receiver : Option String
deriving DecidableEq, Repr

/-! ## math/rand -/

/-- The random source: a tape of raw draws and the position of the next one. -/
structure Rand where
  tape : Nat → Nat
  pos : Nat

/-- The draw `r.Intn(n)`: the next raw value reduced below `n`. -/
def Rand.intn (r : Rand) (n : Nat) : Nat × Rand :=
  (r.tape r.pos % n, ⟨r.tape, r.pos + 1⟩)

/-- The closure given to `rand.Shuffle`:
`shuffled[i], shuffled[j] = shuffled[j], shuffled[i]`. -/
def swap (l : List String) (i j : Nat) : List String :=
  match l[i]?, l[j]? with
  | some a, some b => (l.set i b).set j a
  | _, _ => l

/-- The loop of `rand.Shuffle`: `for ; i > 0; i-- { j := r.int31n(i+1); swap(i, j) }`,
entered with `i` at its current value. -/
def shuffleLoop : Nat → Rand → List String → List String × Rand
  | 0, r, l => (l, r)
  | i + 1, r, l => shuffleLoop i (r.intn (i + 2)).2 (swap l (i + 1) (r.intn (i + 2)).1)

/-- The call `rand.Shuffle(len(shuffled), swap)`: the loop starts at `i = n - 1`. -/
def Shuffle (r : Rand) (l : List String) : List String × Rand :=
  shuffleLoop (l.length - 1) r l

/-! ## drawAll -/

/-- The inner loop of `drawAll` over `i := range state.Members`: it stops with
`valid = false` at the first `giver == receiver` and appends a fresh `Pair`
otherwise.  The result is `valid` and `state.Pairs`. -/
def pairUp : List String → List String → List Pair → Bool × List Pair
  | giver :: gs, receiver :: rs, acc =>
    if giver = receiver then (false, acc)
    else pairUp gs rs (acc ++ [⟨giver, receiver, "", false⟩])
  | _, _, acc => (true, acc)

/-- The outer `for { ... }` of `drawAll`, run for at most `fuel` trials. -/
def drawLoop : Nat → Rand → List String → Option (List Pair)
  | 0, _, _ => none
  | fuel + 1, r, members =>
    if (pairUp members (Shuffle r members).1 []).1 then
      some (pairUp members (Shuffle r members).1 []).2
    else drawLoop fuel (Shuffle r members).2 members

/-- The function `drawAll`. -/
def drawAll (fuel : Nat) (r : Rand) (s : State) : Option State :=
  if s.Members.length < 2 then some ⟨s.Members, []⟩
  else (drawLoop fuel r s.Members).map (fun pairs => ⟨s.Members, pairs⟩)

/-! ## golang.org/x/crypto/bcrypt -/

/-- The two functions of `golang.org/x/crypto/bcrypt` that `resultHandler`
calls, taken as a parameter.  `hash salt password` is the hash string that
`GenerateFromPassword` returns for the salt it drew and a password it accepts;
`verify hashed password` tells whether `CompareHashAndPassword` returns `nil`. -/
structure Bcrypt where
  hash : Nat → String → String
  verify : String → String → Bool

/-- The library's `GenerateFromPassword` at `bcrypt.DefaultCost`: it starts with
`if len(password) > 72 { return nil, ErrPasswordTooLong }` (`none` here) and
hashes any other password with a fresh salt. -/
def GenerateFromPassword (B : Bcrypt) (salt : Nat) (password : String) : Option String :=
  if password.utf8ByteSize > 72 then none else some (B.hash salt password)

/-- The library laws the handlers rely on: a hash is never the empty string
(it is 60 bytes long), and a password that was accepted verifies against its
own hash. -/
def Bcrypt.Lawful (B : Bcrypt) : Prop :=
  (∀ salt password, B.hash salt password ≠ "") ∧
  (∀ salt password, password.utf8ByteSize ≤ 72 → B.verify (B.hash salt password) password = true)

/-- A stand-in for the library that satisfies `Bcrypt.Lawful`, used to run the
handlers on concrete requests.  It is not a model of the bcrypt digest. -/
def plainBcrypt : Bcrypt :=
  ⟨fun _ password => "$2a$10$" ++ password, fun hashed password => hashed == "$2a$10$" ++ password⟩

/-- A password of 73 bytes, one more than the library accepts. -/
def longSecret : String :=
  String.mk (List.replicate 73 'a')

/-! ## strings.TrimSpace -/

/-- The predicate `unicode.IsSpace`: the Latin-1 switch, then the `White_Space` table. -/
def isSpace (c : Char) : Bool :=
  if c.toNat ≤ 0xFF then
    c.toNat == 0x09 || c.toNat == 0x0A || c.toNat == 0x0B || c.toNat == 0x0C || c.toNat == 0x0D ||
      c.toNat == 0x20 || c.toNat == 0x85 || c.toNat == 0xA0
  else
    c.toNat == 0x1680 || (0x2000 ≤ c.toNat && c.toNat ≤ 0x200A) || c.toNat == 0x2028 ||
      c.toNat == 0x2029 || c.toNat == 0x202F || c.toNat == 0x205F || c.toNat == 0x3000

/-- The function `strings.TrimSpace`: leading and trailing white space removed. -/
def TrimSpace (s : String) : String :=
  String.mk ((s.data.dropWhile isSpace).reverse.dropWhile isSpace).reverse

/-! ## Handlers -/

/-- One entry of the array written by `listHandler`. -/
structure Entry where
  Name : String
  Link : String
deriving DecidableEq, Repr

/-- The JSON value that `listHandler` writes as the body of its answer. -/
inductive Body where
  | null
  | array (entries : List Entry)
deriving DecidableEq, Repr

/-- The call `json.NewEncoder(w).Encode(res)` on a slice of entries, `none`
being the nil slice: `encoding/json` writes a nil slice as `null` and any other
slice as an array. -/
def Encode : Option (List Entry) → Body
  | none => Body.null
  | some entries => Body.array entries

/-- The loop `for _, p := range state.Pairs` of `listHandler`, with the link
built from `link`: `res = append(res, Entry{...})` allocates when `res` is nil
and yields a slice that is not nil. -/
def listLoop (link : String) : List Pair → Option (List Entry) → Option (List Entry)
  | [], res => res
  | p :: ps, res => listLoop link ps (some (res.getD [] ++ [⟨p.Giver, link ++ p.Giver⟩]))

/-- The function `listHandler` of `src/main.go`: `var res []Entry` starts as the
nil slice, the loop appends one entry per pair, and the slice is encoded. -/
def listHandler (s : State) : Body :=
  Encode (listLoop "./result.html?giver=" s.Pairs none)

/-- The loop `for i, p := range state.Pairs` of `resultHandler`: the first pair
whose giver matches decides the response, and `state.Pairs[i]` is updated in
place when the secret is claimed.  The error of `GenerateFromPassword` is
discarded (`hash, _ :=`), so that a refused password stores `string(nil)`. -/
def resultLoop (B : Bcrypt) (salt : Nat) (method giver password : String) :
    List Pair → Response × List Pair
  | [] => (⟨404, none⟩, [])
  | p :: ps =>
    if p.Giver = giver then
      if method = "POST" then
        if p.Password = "" then
          (⟨200, some p.Receiver⟩,
            ⟨p.Giver, p.Receiver, (GenerateFromPassword B salt password).getD "", true⟩ :: ps)
        else if B.verify p.Password password = false then (⟨403, none⟩, p :: ps)
        else (⟨200, some p.Receiver⟩, p :: ps)
      else (⟨405, none⟩, p :: ps)
    else
      ((resultLoop B salt method giver password ps).1,
        p :: (resultLoop B salt method giver password ps).2)

/-- The function `resultHandler`.  `giver` is the query parameter (`""` when it
is missing), `password` the field decoded from the body (`""` when the body
does not decode: the error of `Decode` is discarded). -/
def resultHandler (B : Bcrypt) (salt : Nat) (method giver password : String) (s : State) :
    Response × State :=
  if giver = "" then (⟨400, none⟩, s)
  else
    ((resultLoop B salt method giver password s.Pairs).1,
      ⟨s.Members, (resultLoop B salt method giver password s.Pairs).2⟩)

/-- The function `addHandler`.  `body` is the `name` field decoded from the
request (`none` when `Decode` fails), `saveOk` tells whether the final
`saveState` succeeds.  `none` is returned when `drawAll` is still looping
after `fuel` trials. -/
def addHandler (fuel : Nat) (r : Rand) (saveOk : Bool) (method : String) (body : Option String)
    (s : State) : Option (Response × State) :=
  if method ≠ "POST" then some (⟨405, none⟩, s)
  else
    match body with
    | none => some (⟨400, none⟩, s)
    | some name =>
      if TrimSpace name = "" then some (⟨400, none⟩, s)
      else if TrimSpace name ∈ s.Members then some (⟨400, none⟩, s)
      else
        (drawAll fuel r ⟨s.Members ++ [TrimSpace name], []⟩).map
          (fun s' => (⟨if saveOk then 200 else 500, none⟩, s'))

/-- The function `resetHandler` of `src/main.go`, gated by the fixed shared
secret.  `body` is the `password` field decoded from the request. -/
def resetHandler (saveOk : Bool) (method : String) (body : Option String) (s : State) :
    Response × State :=
  if method ≠ "POST" then (⟨405, none⟩, s)
  else
    match body with
    | none => (⟨400, none⟩, s)
    | some password =>
      if password ≠ "avadakedavra" then (⟨403, none⟩, s)
      else (⟨if saveOk then 200 else 500, none⟩, ⟨[], []⟩)

/-- What the store holds at start-up. -/
inductive Stored where
  | absent
  | unreadable
  | document (s : State)

/-- The function `loadState` of `src/main.go`: the empty state when the key is
absent, an error (`none`) when the read or the decoding fails. -/
def loadState : Stored → Option State
  | .absent => some ⟨[], []⟩
  | .unreadable => none
  | .document s => some s

/-- The start-up part of `main` in `src/main.go`: the state with which the
server starts to listen. -/
def main (fuel : Nat) (r : Rand) (stored : Stored) : Option State :=
  if ((loadState stored).getD ⟨[], []⟩).Members.length > 1 then
    drawAll fuel r ((loadState stored).getD ⟨[], []⟩)
  else some ((loadState stored).getD ⟨[], []⟩)

namespace Backend

/-- The function `listHandler` of `src/backend/main.go`: the same nil slice, loop
and encoding, with the link `/result.html?giver=...`. -/
def listHandler (s : State) : Body :=
  Encode (listLoop "/result.html?giver=" s.Pairs none)

/-- The function `resetHandler` of `src/backend/main.go`: no shared secret. -/
def resetHandler (saveOk : Bool) (method : String) (s : State) : Response × State :=
  if method ≠ "POST" then (⟨405, none⟩, s)
  else (⟨if saveOk then 200 else 500, none⟩, ⟨[], []⟩)

/-- The function `init` of `src/backend/main.go`.  `file` is what decoding
`state.json` left in `state`, `none` when the file does not exist. -/
def init (fuel : Nat) (r : Rand) (file : Option State) : Option State :=
  if (file.getD ⟨[], []⟩).Members.length > 1 then drawAll fuel r (file.getD ⟨[], []⟩)
  else some (file.getD ⟨[], []⟩)

end Backend

/-! ## The server as a transition system -/

/-- Which of the two programs is running. -/
inductive Server where
  | redis
  | file
deriving DecidableEq, Repr

/-- A request to one of the three state-changing routes, with the outcomes of
the effects its handler performs. -/
inductive Request where
  | add (fuel : Nat) (r : Rand) (saveOk : Bool) (method : String) (body : Option String)
  | result (salt : Nat) (method giver password : String)
  | reset (saveOk : Bool) (method : String) (body : Option String)

/-- One request served under the lock `mu`. -/
def step (B : Bcrypt) (srv : Server) : Request → State → Option (Response × State)
  | .add fuel r saveOk method body, s => addHandler fuel r saveOk method body s
  | .result salt method giver password, s => some (resultHandler B salt method giver password s)
  | .reset saveOk method body, s =>
    match srv with
    | .redis => some (resetHandler saveOk method body s)
    | .file => some (Backend.resetHandler saveOk method s)

/-- The states reachable from the empty state by serving requests. -/
inductive Reachable (B : Bcrypt) (srv : Server) : State → Prop where
  | empty : Reachable B srv ⟨[], []⟩
  | serve {s s' : State} {resp : Response} (req : Request) :
      Reachable B srv s → step B srv req s = some (resp, s') → Reachable B srv s'

/-! ## Vocabulary of the statements -/

/-- No position holds the same name in both lists. -/
def fixedFree : List String → List String → Bool
  | a :: as, b :: bs => a ≠ b && fixedFree as bs
  | _, _ => true

/-- The shuffle of trial `k` (counted from 0) of `drawAll` on the source `r`:
every trial consumes the draws of one `rand.Shuffle`. -/
def nthShuffle (members : List String) : Nat → Rand → List String
  | 0, r => (Shuffle r members).1
  | k + 1, r => nthShuffle members k (Shuffle r members).2

/-- The pairs form a derangement over the members: the givers are the members
in order, the receivers are a rearrangement of them, nobody gives to
themselves. -/
def Derangement (members : List String) (pairs : List Pair) : Prop :=
  pairs.length = members.length ∧ pairs.map Pair.Giver = members ∧
    (pairs.map Pair.Receiver).Perm members ∧ ∀ p ∈ pairs, p.Giver ≠ p.Receiver

/-- The invariant of the session state. -/
def Invariant (s : State) : Prop :=
  s.Members.Nodup ∧ (s.Members.length < 2 → s.Pairs = []) ∧
    (2 ≤ s.Members.length → Derangement s.Members s.Pairs)

/-- A source whose draws make `rand.Shuffle` move the last of `n` elements to
the front: the draw made at index `i` is `i - 1`. -/
def rotatingSource (n : Nat) : Rand :=
  ⟨fun q => n - 2 - q, 0⟩

/-! ## Lemmas on the shuffle -/

theorem swap_length (l : List String) (i j : Nat) : (swap l i j).length = l.length := by
  unfold swap
  split <;> simp

theorem swap_perm (l : List String) (i j : Nat) : (swap l i j).Perm l := by
  unfold swap
  split
  · rename_i a b hi hj
    obtain ⟨hi', rfl⟩ := List.getElem?_eq_some.mp hi
    obtain ⟨hj', rfl⟩ := List.getElem?_eq_some.mp hj
    by_cases hij : i = j
    · subst hij
      have hself : l.set i l[i] = l := by
        apply List.ext_getElem?
        intro n
        rw [List.getElem?_set]
        split
        · rename_i h
          subst h
          simp [hi']
        · rfl
      rw [List.set_set, hself]
    · rw [List.perm_iff_count]
      intro x
      have hj2 : j < (l.set i l[j]).length := by simpa using hj'
      rw [List.count_set _ _ _ _ hj2, List.count_set _ _ _ _ hi']
      have hget : (l.set i l[j])[j] = l[j] := by
        rw [List.getElem_set_ne hij]
      rw [hget]
      have hc : (if (l[i] == x) = true then 1 else 0) ≤ List.count x l := by
        split
        · rename_i h
          have hx : l[i] = x := by simpa using h
          have hmem : x ∈ l := hx ▸ List.getElem_mem hi'
          exact List.count_pos_iff.mpr hmem
        · exact Nat.zero_le _
      omega
  · exact List.Perm.refl _

theorem shuffleLoop_perm (i : Nat) (r : Rand) (l : List String) :
    (shuffleLoop i r l).1.Perm l := by
  induction i generalizing r l with
  | zero => exact List.Perm.refl _
  | succ i ih =>
    rw [shuffleLoop]
    exact (ih _ _).trans (swap_perm _ _ _)

theorem Shuffle_perm (r : Rand) (l : List String) : (Shuffle r l).1.Perm l :=
  shuffleLoop_perm _ r l

theorem Shuffle_length (r : Rand) (l : List String) : (Shuffle r l).1.length = l.length :=
  (Shuffle_perm r l).length_eq

/-! ## Lemmas on drawAll -/

theorem pairUp_valid (gs rs : List String) (acc : List Pair) :
    (pairUp gs rs acc).1 = fixedFree gs rs := by
  induction gs generalizing rs acc with
  | nil => simp [pairUp, fixedFree]
  | cons g gs ih =>
    cases rs with
    | nil => simp [pairUp, fixedFree]
    | cons r rs =>
      by_cases h : g = r
      · simp [pairUp, fixedFree, h]
      · simp [pairUp, fixedFree, h, ih]

theorem pairUp_pairs (gs rs : List String) (acc : List Pair) (hlen : gs.length = rs.length)
    (hv : fixedFree gs rs = true) :
    (pairUp gs rs acc).2 = acc ++ List.zipWith (fun g r => (⟨g, r, "", false⟩ : Pair)) gs rs := by
  induction gs generalizing rs acc with
  | nil => simp [pairUp]
  | cons g gs ih =>
    cases rs with
    | nil => simp at hlen
    | cons r rs =>
      simp only [fixedFree, Bool.and_eq_true, decide_eq_true_eq] at hv
      simp only [List.length_cons, add_left_inj] at hlen
      simp [pairUp, hv.1, ih rs _ hlen hv.2]

theorem zipWith_givers (gs rs : List String) (hlen : gs.length = rs.length) :
    (List.zipWith (fun g r => (⟨g, r, "", false⟩ : Pair)) gs rs).map Pair.Giver = gs := by
  induction gs generalizing rs with
  | nil => simp
  | cons g gs ih =>
    cases rs with
    | nil => simp at hlen
    | cons r rs =>
      simp only [List.length_cons, add_left_inj] at hlen
      simp [ih rs hlen]

theorem zipWith_receivers (gs rs : List String) (hlen : gs.length = rs.length) :
    (List.zipWith (fun g r => (⟨g, r, "", false⟩ : Pair)) gs rs).map Pair.Receiver = rs := by
  induction gs generalizing rs with
  | nil =>
    cases rs with
    | nil => simp
    | cons r rs => simp at hlen
  | cons g gs ih =>
    cases rs with
    | nil => simp at hlen
    | cons r rs =>
      simp only [List.length_cons, add_left_inj] at hlen
      simp [ih rs hlen]

theorem zipWith_fresh (gs rs : List String) :
    ∀ p ∈ List.zipWith (fun g r => (⟨g, r, "", false⟩ : Pair)) gs rs,
      p.Password = "" ∧ p.HasAccess = false := by
  induction gs generalizing rs with
  | nil => simp
  | cons g gs ih =>
    cases rs with
    | nil => simp
    | cons r rs =>
      intro p hp
      simp only [List.zipWith_cons_cons, List.mem_cons] at hp
      rcases hp with rfl | hp
      · exact ⟨rfl, rfl⟩
      · exact ih rs p hp

theorem zipWith_distinct (gs rs : List String) (hv : fixedFree gs rs = true) :
    ∀ p ∈ List.zipWith (fun g r => (⟨g, r, "", false⟩ : Pair)) gs rs, p.Giver ≠ p.Receiver := by
  induction gs generalizing rs with
  | nil => simp
  | cons g gs ih =>
    cases rs with
    | nil => simp
    | cons r rs =>
      simp only [fixedFree, Bool.and_eq_true, decide_eq_true_eq] at hv
      intro p hp
      simp only [List.zipWith_cons_cons, List.mem_cons] at hp
      rcases hp with rfl | hp
      · exact hv.1
      · exact ih rs hv.2 p hp

/-- Whatever `drawLoop` returns is the pairing of the members with an accepted
shuffle of them. -/
theorem drawLoop_some (fuel : Nat) (r : Rand) (members : List String) (pairs : List Pair)
    (h : drawLoop fuel r members = some pairs) :
    ∃ shuffled : List String, shuffled.Perm members ∧ fixedFree members shuffled = true ∧
      pairs = List.zipWith (fun g r => (⟨g, r, "", false⟩ : Pair)) members shuffled := by
  induction fuel generalizing r with
  | zero => simp [drawLoop] at h
  | succ fuel ih =>
    rw [drawLoop] at h
    split at h
    · rename_i hv
      rw [pairUp_valid] at hv
      refine ⟨(Shuffle r members).1, Shuffle_perm r members, hv, ?_⟩
      have := pairUp_pairs members (Shuffle r members).1 [] (Shuffle_length r members).symm hv
      simp only [List.nil_append] at this
      rw [← this]
      exact (Option.some.inj h).symm
    · exact ih _ h

/-- The first accepted trial decides the result of `drawLoop`. -/
theorem drawLoop_first (members : List String) (k : Nat) :
    ∀ (r : Rand) (fuel : Nat), k < fuel →
      fixedFree members (nthShuffle members k r) = true →
      (∀ j, j < k → fixedFree members (nthShuffle members j r) = false) →
      drawLoop fuel r members =
        some (List.zipWith (fun g r => (⟨g, r, "", false⟩ : Pair)) members (nthShuffle members k r)) := by
  induction k with
  | zero =>
    intro r fuel hf hv _
    obtain ⟨fuel, rfl⟩ : ∃ n, fuel = n + 1 := ⟨fuel - 1, by omega⟩
    simp only [nthShuffle] at hv ⊢
    rw [drawLoop, pairUp_valid, hv]
    simp [pairUp_pairs members (Shuffle r members).1 [] (Shuffle_length r members).symm hv]
  | succ k ih =>
    intro r fuel hf hv hrej
    obtain ⟨fuel, rfl⟩ : ∃ n, fuel = n + 1 := ⟨fuel - 1, by omega⟩
    have h0 := hrej 0 (Nat.succ_pos k)
    simp only [nthShuffle] at h0 hv ⊢
    rw [drawLoop, pairUp_valid, h0]
    simp only [Bool.false_eq_true, if_false]
    exact ih _ fuel (by omega) hv (fun j hj => by simpa [nthShuffle] using hrej (j + 1) (by omega))

theorem nthShuffle_perm (members : List String) (k : Nat) (r : Rand) :
    (nthShuffle members k r).Perm members := by
  induction k generalizing r with
  | zero => exact Shuffle_perm r members
  | succ k ih => exact ih _

/-- Enough trials give a result as soon as some trial is accepted. -/
theorem drawLoop_returns (members : List String) (k : Nat) :
    ∀ (r : Rand) (fuel : Nat), k < fuel →
      fixedFree members (nthShuffle members k r) = true →
      ∃ pairs, drawLoop fuel r members = some pairs := by
  induction k with
  | zero =>
    intro r fuel hf hv
    exact ⟨_, drawLoop_first members 0 r fuel hf hv (fun j hj => absurd hj (Nat.not_lt_zero j))⟩
  | succ k ih =>
    intro r fuel hf hv
    obtain ⟨fuel, rfl⟩ : ∃ n, fuel = n + 1 := ⟨fuel - 1, by omega⟩
    rw [drawLoop]
    split
    · exact ⟨_, rfl⟩
    · exact ih _ fuel (by omega) (by simpa [nthShuffle] using hv)

theorem derangement_zipWith (members shuffled : List String) (hp : shuffled.Perm members)
    (hv : fixedFree members shuffled = true) :
    Derangement members (List.zipWith (fun g r => (⟨g, r, "", false⟩ : Pair)) members shuffled) := by
  have hlen : members.length = shuffled.length := hp.length_eq.symm
  refine ⟨?_, zipWith_givers _ _ hlen, ?_, zipWith_distinct _ _ hv⟩
  · simp [hlen]
  · rw [zipWith_receivers _ _ hlen]
    exact hp

/-- What `drawAll` returns: the members are kept; below two members the pairs
are empty, from two members on they pair the members with an accepted shuffle. -/
theorem drawAll_some (fuel : Nat) (r : Rand) (s s' : State) (h : drawAll fuel r s = some s') :
    s'.Members = s.Members ∧ (s.Members.length < 2 → s'.Pairs = []) ∧
      (2 ≤ s.Members.length → ∃ shuffled : List String, shuffled.Perm s.Members ∧
        fixedFree s.Members shuffled = true ∧
        s'.Pairs = List.zipWith (fun g r => (⟨g, r, "", false⟩ : Pair)) s.Members shuffled) := by
  unfold drawAll at h
  split at h
  · rename_i hlt
    cases Option.some.inj h
    exact ⟨rfl, fun _ => rfl, fun h2 => absurd hlt (by omega)⟩
  · rename_i hge
    cases hd : drawLoop fuel r s.Members with
    | none => simp [hd] at h
    | some pairs =>
      rw [hd] at h
      cases Option.some.inj h
      refine ⟨rfl, fun hlt => absurd hlt hge, fun _ => ?_⟩
      exact drawLoop_some fuel r s.Members pairs hd

theorem drawAll_fresh (fuel : Nat) (r : Rand) (s s' : State) (h : drawAll fuel r s = some s') :
    ∀ p ∈ s'.Pairs, p.Password = "" ∧ p.HasAccess = false := by
  obtain ⟨_, hsmall, hbig⟩ := drawAll_some fuel r s s' h
  by_cases hn : s.Members.length < 2
  · rw [hsmall hn]
    simp
  · obtain ⟨shuffled, _, _, hpairs⟩ := hbig (by omega)
    rw [hpairs]
    exact zipWith_fresh _ _

theorem drawAll_invariant (fuel : Nat) (r : Rand) (s s' : State) (hnd : s.Members.Nodup)
    (h : drawAll fuel r s = some s') : Invariant s' := by
  obtain ⟨hm, hsmall, hbig⟩ := drawAll_some fuel r s s' h
  refine ⟨hm ▸ hnd, fun hlt => hsmall (hm ▸ hlt), fun hge => ?_⟩
  obtain ⟨shuffled, hp, hv, hpairs⟩ := hbig (hm ▸ hge)
  rw [hm, hpairs]
  exact derangement_zipWith _ _ hp hv

theorem fixedFree_two (a b : String) (l : List String) (hp : l.Perm [a, b])
    (hv : fixedFree [a, b] l = true) : l = [b, a] := by
  have hlen := hp.length_eq
  match l, hlen with
  | [x, y], _ =>
    simp only [fixedFree, Bool.and_eq_true, decide_eq_true_eq, Bool.and_true] at hv
    have hx : x ∈ [a, b] := hp.subset (by simp)
    have hy : y ∈ [a, b] := hp.subset (by simp)
    simp only [List.mem_cons, List.mem_singleton, List.not_mem_nil, or_false] at hx hy
    have hx' : x = b := by
      rcases hx with h | h
      · exact absurd h.symm hv.1
      · exact h
    have hy' : y = a := by
      rcases hy with h | h
      · exact h
      · exact absurd h.symm hv.2
    rw [hx', hy']

theorem pair_snd {a b : Response} {s t : State} (h : (a, s) = (b, t)) : s = t :=
  congrArg Prod.snd h

/-! ## A source on which drawAll returns at once -/

theorem swap_cons_succ (h : String) (t : List String) (i j : Nat) :
    swap (h :: t) (i + 1) (j + 1) = h :: swap t i j := by
  unfold swap
  simp only [List.getElem?_cons_succ]
  split <;> simp_all

theorem swap_adjacent (A : List String) (a x : String) (C : List String) :
    swap (A ++ a :: x :: C) (A.length + 1) A.length = A ++ x :: a :: C := by
  induction A with
  | nil => simp [swap]
  | cons h A ih =>
    simp only [List.cons_append, List.length_cons]
    rw [swap_cons_succ, ih]

/-- With the draw `i - 1` at every index `i`, the loop of `rand.Shuffle` carries
the element at the start index to the front. -/
theorem shuffleLoop_rotate (m : Nat) (A : List String) :
    ∀ (x : String) (C : List String) (pos : Nat), m + 1 = pos + A.length →
      (shuffleLoop A.length ⟨fun q => m - q, pos⟩ (A ++ x :: C)).1 = x :: A ++ C := by
  induction A using List.reverseRecOn with
  | nil =>
    intro x C pos _
    simp [shuffleLoop]
  | append_singleton A a ih =>
    intro x C pos hm
    simp only [List.length_append, List.length_singleton] at hm ⊢
    rw [shuffleLoop]
    have hdraw : (m - pos) % (A.length + 2) = A.length := by
      rw [show m - pos = A.length by omega]
      exact Nat.mod_eq_of_lt (by omega)
    simp only [Rand.intn, hdraw, List.append_assoc, List.singleton_append]
    rw [swap_adjacent, ih x (a :: C) (pos + 1) (by omega)]
    simp

theorem fixedFree_shift (A : List String) :
    ∀ (y x : String), List.Chain (fun a b => a ≠ b) y (A ++ [x]) →
      fixedFree (A ++ [x]) (y :: A) = true := by
  induction A with
  | nil =>
    intro y x h
    have hyx : y ≠ x := (List.chain_cons.mp h).1
    simp [fixedFree, Ne.symm hyx]
  | cons a A ih =>
    intro y x h
    have h' := List.chain_cons.mp h
    simp [fixedFree, Ne.symm h'.1, ih a x h'.2]

/-- On the rotating source, the first shuffle of at least two distinct members
has no fixed point. -/
theorem rotatingSource_accepted (members : List String) (hn : 2 ≤ members.length)
    (hnd : members.Nodup) :
    fixedFree members (nthShuffle members 0 (rotatingSource members.length)) = true := by
  have hne : members ≠ [] := by
    intro h
    simp [h] at hn
  obtain ⟨A, x, rfl⟩ : ∃ A x, members = A ++ [x] :=
    ⟨members.dropLast, members.getLast hne, (List.dropLast_append_getLast hne).symm⟩
  simp only [List.length_append, List.length_singleton] at hn
  have hsh : (Shuffle (rotatingSource (A ++ [x]).length) (A ++ [x])).1 = x :: A := by
    unfold Shuffle rotatingSource
    simp only [List.length_append, List.length_singleton, Nat.add_sub_cancel]
    have := shuffleLoop_rotate (A.length + 1 - 2) A x [] 0 (by omega)
    simpa using this
  simp only [nthShuffle, hsh]
  apply fixedFree_shift
  cases A with
  | nil => simp at hn
  | cons a A =>
    have hx : x ∉ a :: A := by
      intro hmem
      exact (List.nodup_append.mp hnd).2.2 hmem (List.mem_singleton_self x)
    refine List.chain_cons.mpr ⟨fun h => hx (h ▸ List.mem_cons_self _ _), ?_⟩
    exact (List.Pairwise.chain' hnd : List.Chain' (fun a b => a ≠ b) (a :: (A ++ [x])))

/-- For every list of at least two distinct members there is a source on which
`drawAll` returns at the first trial. -/
theorem drawAll_can_return (members : List String) (pairs : List Pair)
    (hn : 2 ≤ members.length) (hnd : members.Nodup) :
    ∃ s', drawAll 1 (rotatingSource members.length) ⟨members, pairs⟩ = some s' := by
  obtain ⟨ps, hps⟩ := drawLoop_returns members 0 (rotatingSource members.length) 1
    (by decide) (rotatingSource_accepted members hn hnd)
  refine ⟨⟨members, ps⟩, ?_⟩
  unfold drawAll
  simp only
  rw [if_neg (by omega), hps]
  rfl

/-! ## The stand-in for bcrypt -/

theorem plainBcrypt_lawful : plainBcrypt.Lawful := by
  refine ⟨fun salt password h => ?_, fun salt password _ => ?_⟩
  · have hd := congrArg String.data h
    simp [plainBcrypt] at hd
  · simp [plainBcrypt]

/-! ## Lemmas on resultHandler -/

/-- A reveal never changes who gives to whom. -/
theorem resultLoop_pairing (B : Bcrypt) (salt : Nat) (method giver password : String)
    (ps : List Pair) :
    (resultLoop B salt method giver password ps).2.map (fun p => (p.Giver, p.Receiver)) =
      ps.map (fun p => (p.Giver, p.Receiver)) := by
  induction ps with
  | nil => simp [resultLoop]
  | cons p ps ih =>
    rw [resultLoop]
    split_ifs <;> simp [ih]

theorem resultLoop_givers (B : Bcrypt) (salt : Nat) (method giver password : String)
    (ps : List Pair) :
    (resultLoop B salt method giver password ps).2.map Pair.Giver = ps.map Pair.Giver := by
  have h := congrArg (List.map Prod.fst) (resultLoop_pairing B salt method giver password ps)
  simpa [List.map_map, Function.comp_def] using h

theorem resultLoop_receivers (B : Bcrypt) (salt : Nat) (method giver password : String)
    (ps : List Pair) :
    (resultLoop B salt method giver password ps).2.map Pair.Receiver = ps.map Pair.Receiver := by
  have h := congrArg (List.map Prod.snd) (resultLoop_pairing B salt method giver password ps)
  simpa [List.map_map, Function.comp_def] using h

theorem resultLoop_derangement (B : Bcrypt) (salt : Nat) (method giver password : String)
    (members : List String) (ps : List Pair) (h : Derangement members ps) :
    Derangement members (resultLoop B salt method giver password ps).2 := by
  obtain ⟨hlen, hg, hr, hne⟩ := h
  have hg' := resultLoop_givers B salt method giver password ps
  have hr' := resultLoop_receivers B salt method giver password ps
  refine ⟨?_, hg'.trans hg, hr' ▸ hr, ?_⟩
  · have := congrArg List.length hg'
    simpa [hlen] using this
  · intro q hq
    have hmem : (q.Giver, q.Receiver) ∈
        (resultLoop B salt method giver password ps).2.map (fun p => (p.Giver, p.Receiver)) :=
      List.mem_map.mpr ⟨q, hq, rfl⟩
    rw [resultLoop_pairing] at hmem
    obtain ⟨p, hp, hpq⟩ := List.mem_map.mp hmem
    have h1 : p.Giver = q.Giver := congrArg Prod.fst hpq
    have h2 : p.Receiver = q.Receiver := congrArg Prod.snd hpq
    rw [← h1, ← h2]
    exact hne p hp

/-- Only an answer 200 can come with a change of the pairs. -/
theorem resultLoop_unchanged (B : Bcrypt) (salt : Nat) (method giver password : String)
    (ps : List Pair) (h : (resultLoop B salt method giver password ps).1.status ≠ 200) :
    (resultLoop B salt method giver password ps).2 = ps := by
  induction ps with
  | nil => simp [resultLoop]
  | cons p ps ih =>
    rw [resultLoop] at h ⊢
    split_ifs at h ⊢ <;> simp_all

/-- A method other than POST: 405 when some pair has the giver, 404 otherwise. -/
theorem resultLoop_not_post (B : Bcrypt) (salt : Nat) (method giver password : String)
    (ps : List Pair) (hm : method ≠ "POST") :
    resultLoop B salt method giver password ps =
      (⟨if ∃ p ∈ ps, p.Giver = giver then 405 else 404, none⟩, ps) := by
  induction ps with
  | nil => simp [resultLoop]
  | cons p ps ih =>
    rw [resultLoop]
    by_cases hg : p.Giver = giver
    · simp [hg, hm]
    · simp [hg, ih]

/-- The pair that `resultHandler` finds for a giver decides a POST reveal: an
unset secret is claimed (with `""` again when the library refuses the
password), a set secret is only verified and nothing is written. -/
theorem resultLoop_found (B : Bcrypt) (salt : Nat) (giver password : String) (ps : List Pair)
    (p : Pair) (h : ps.find? (fun q => decide (q.Giver = giver)) = some p) :
    (p.Password = "" →
      (resultLoop B salt "POST" giver password ps).1 = ⟨200, some p.Receiver⟩ ∧
      (resultLoop B salt "POST" giver password ps).2.find? (fun q => decide (q.Giver = giver)) =
        some ⟨p.Giver, p.Receiver, (GenerateFromPassword B salt password).getD "", true⟩) ∧
    (p.Password ≠ "" →
      (resultLoop B salt "POST" giver password ps).1 =
        (if B.verify p.Password password = false then ⟨403, none⟩ else ⟨200, some p.Receiver⟩) ∧
      (resultLoop B salt "POST" giver password ps).2 = ps) := by
  induction ps with
  | nil => simp at h
  | cons q qs ih =>
    rw [resultLoop]
    by_cases hg : q.Giver = giver
    · simp only [List.find?_cons, hg, decide_True] at h
      cases Option.some.inj h
      refine ⟨fun h0 => ?_, fun h1 => ?_⟩
      · simp [hg, h0]
      · simp only [hg, if_true, h1, if_false]
        split_ifs <;> simp
    · simp only [List.find?_cons, hg, decide_False] at h
      obtain ⟨ih0, ih1⟩ := ih h
      refine ⟨fun h0 => ?_, fun h1 => ?_⟩
      · simp [hg, ih0 h0]
      · simp [hg, ih1 h1]

/-! ## The claims on drawAll -/

/-- C1: for at least two pairwise distinct members, whenever `drawAll` returns,
the pairing list has one entry per member, the givers are the members in
insertion order, the receivers are a rearrangement of the members in which
every member occurs once, and no entry pairs a member with itself. -/
theorem drawAll_derangement (fuel : Nat) (r : Rand) (members : List String) (pairs : List Pair)
    (s' : State) (hn : 2 ≤ members.length) (hnd : members.Nodup)
    (h : drawAll fuel r ⟨members, pairs⟩ = some s') :
    s'.Pairs.length = members.length ∧
      (∀ i : Nat, (s'.Pairs[i]?).map Pair.Giver = members[i]?) ∧
      (s'.Pairs.map Pair.Receiver).Perm members ∧
      (∀ m ∈ members, (s'.Pairs.map Pair.Giver).count m = 1 ∧
        (s'.Pairs.map Pair.Receiver).count m = 1) ∧
      ∀ p ∈ s'.Pairs, p.Giver ≠ p.Receiver := by
  obtain ⟨_, _, hbig⟩ := drawAll_some fuel r ⟨members, pairs⟩ s' h
  obtain ⟨shuffled, hp, hv, hpairs⟩ := hbig hn
  obtain ⟨hlen, hg, hr, hne⟩ := derangement_zipWith members shuffled hp hv
  simp only at hpairs
  rw [← hpairs] at hlen hg hr hne
  refine ⟨hlen, fun i => ?_, hr, fun m hm => ⟨?_, ?_⟩, hne⟩
  · rw [← List.getElem?_map, hg]
  · rw [hg]
    exact List.count_eq_one_of_mem hnd hm
  · rw [hr.count_eq]
    exact List.count_eq_one_of_mem hnd hm

/-- Witness of C1: three members, and a source whose first shuffle is accepted. -/
theorem drawAll_derangement_witness :
    ([⟨"A", "B", "", false⟩, ⟨"B", "C", "", false⟩, ⟨"C", "A", "", false⟩] : List Pair).length = 3 ∧
      (∀ p ∈ ([⟨"A", "B", "", false⟩, ⟨"B", "C", "", false⟩, ⟨"C", "A", "", false⟩] : List Pair),
        p.Giver ≠ p.Receiver) :=
  have h := drawAll_derangement 1 ⟨fun _ => 0, 0⟩ ["A", "B", "C"] []
    ⟨["A", "B", "C"], [⟨"A", "B", "", false⟩, ⟨"B", "C", "", false⟩, ⟨"C", "A", "", false⟩]⟩
    (by decide) (by decide) (by decide)
  ⟨h.1, h.2.2.2.2⟩

/-- C9: `drawAll` is rejection sampling over the shuffles of its source.  Each
shuffle is a rearrangement of the members; if trial `k` is the first whose
shuffle has no fixed point, then with more than `k` trials allowed `drawAll`
returns, its givers are the members and its receivers are exactly that
shuffle; with two members the result is the swap. -/
theorem drawAll_first_accepted (fuel k : Nat) (r : Rand) (members : List String)
    (pairs : List Pair) (hn : 2 ≤ members.length) (hnd : members.Nodup) (hf : k < fuel)
    (hk : fixedFree members (nthShuffle members k r) = true)
    (hrej : ∀ j, j < k → fixedFree members (nthShuffle members j r) = false) :
    (∀ j, (nthShuffle members j r).Perm members) ∧
      (∃ s', drawAll fuel r ⟨members, pairs⟩ = some s' ∧ s'.Members = members ∧
        s'.Pairs.map Pair.Giver = members ∧
        s'.Pairs.map Pair.Receiver = nthShuffle members k r) ∧
      (∀ a b, members = [a, b] →
        drawAll fuel r ⟨members, pairs⟩ =
          some ⟨[a, b], [⟨a, b, "", false⟩, ⟨b, a, "", false⟩]⟩) := by
  have hlen : members.length = (nthShuffle members k r).length :=
    (nthShuffle_perm members k r).length_eq.symm
  have hd := drawLoop_first members k r fuel hf hk hrej
  have hall : drawAll fuel r ⟨members, pairs⟩ =
      some ⟨members, List.zipWith (fun g r => (⟨g, r, "", false⟩ : Pair)) members
        (nthShuffle members k r)⟩ := by
    unfold drawAll
    simp only
    rw [if_neg (by omega), hd]
    rfl
  refine ⟨fun j => nthShuffle_perm members j r, ⟨_, hall, rfl, ?_, ?_⟩, ?_⟩
  · exact zipWith_givers _ _ hlen
  · exact zipWith_receivers _ _ hlen
  · intro a b hab
    subst hab
    rw [hall, fixedFree_two a b _ (nthShuffle_perm [a, b] k r) hk]
    rfl

/-- Witness of C9: the first shuffle of the source fixes `"A"` and is
rejected, the second one is accepted. -/
theorem drawAll_first_accepted_witness :
    ∃ s', drawAll 2 ⟨fun i => if i < 2 then 1 else 0, 0⟩ ⟨["A", "B", "C"], []⟩ = some s' ∧
      s'.Members = ["A", "B", "C"] ∧ s'.Pairs.map Pair.Giver = ["A", "B", "C"] ∧
      s'.Pairs.map Pair.Receiver =
        nthShuffle ["A", "B", "C"] 1 ⟨fun i => if i < 2 then 1 else 0, 0⟩ :=
  (drawAll_first_accepted 2 1 ⟨fun i => if i < 2 then 1 else 0, 0⟩ ["A", "B", "C"] []
    (by decide) (by decide) (by decide) (by decide) (by decide)).2.1

/-! ## The claims on resultHandler -/

/-- C3, evaluated where it fails: the first reveal for `"A"` submits the 73-byte
secret, which the library refuses; the discarded error leaves the secret
unset, and the following reveal with the different secret `"y"` is answered
200 with the receiver instead of 403. -/
theorem resultHandler_long_then_other (B : Bcrypt) :
    resultHandler B 1 "POST" "A" "y"
        (resultHandler B 0 "POST" "A" longSecret
          ⟨["A", "B"], [⟨"A", "B", "", false⟩, ⟨"B", "A", "", false⟩]⟩).2 =
      (⟨200, some "B"⟩,
        ⟨["A", "B"], [⟨"A", "B", B.hash 1 "y", true⟩, ⟨"B", "A", "", false⟩]⟩) := by
  have hlong : longSecret.utf8ByteSize = 73 := by decide
  have hy : "y".utf8ByteSize = 1 := by decide
  simp [resultHandler, resultLoop, GenerateFromPassword, hlong, hy]

/-- C4, evaluated where it fails: after the first reveal with the 73-byte
secret the stored secret is still `""` (with `has_access` set), and the next
reveal, submitting `"y"`, changes the stored secret. -/
theorem resultHandler_long_secret_unset (B : Bcrypt) :
    resultHandler B 0 "POST" "A" longSecret
        ⟨["A", "B"], [⟨"A", "B", "", false⟩, ⟨"B", "A", "", false⟩]⟩ =
      (⟨200, some "B"⟩, ⟨["A", "B"], [⟨"A", "B", "", true⟩, ⟨"B", "A", "", false⟩]⟩) ∧
    (resultHandler B 1 "POST" "A" "y"
        ⟨["A", "B"], [⟨"A", "B", "", true⟩, ⟨"B", "A", "", false⟩]⟩).2.Pairs.map Pair.Password =
      [B.hash 1 "y", ""] := by
  have hlong : longSecret.utf8ByteSize = 73 := by decide
  have hy : "y".utf8ByteSize = 1 := by decide
  constructor <;> simp [resultHandler, resultLoop, GenerateFromPassword, hlong, hy]

/-- The behaviour C3 describes, where the library accepts the first secret: with
a lawful library, a non-empty giver `A` whose pair has receiver `R` and no
secret, and a secret `x` of at most 72 bytes, the reveal returns `R` and stores
the hash of `x`; a following reveal whose secret the library rejects against
that hash is answered 403 and writes nothing; a following reveal with `x`
returns `R` again. -/
theorem resultHandler_claim_then_verify (B : Bcrypt) (hB : B.Lawful) (salt salt1 salt2 : Nat)
    (A R x y : String) (acc : Bool) (s : State) (hA : A ≠ "") (hx : x.utf8ByteSize ≤ 72)
    (hfind : s.Pairs.find? (fun q => decide (q.Giver = A)) = some ⟨A, R, "", acc⟩) :
    (resultHandler B salt "POST" A x s).1 = ⟨200, some R⟩ ∧
      (resultHandler B salt "POST" A x s).2.Pairs.find? (fun q => decide (q.Giver = A)) =
        some ⟨A, R, B.hash salt x, true⟩ ∧
      (B.verify (B.hash salt x) y = false →
        resultHandler B salt1 "POST" A y (resultHandler B salt "POST" A x s).2 =
          (⟨403, none⟩, (resultHandler B salt "POST" A x s).2)) ∧
      resultHandler B salt2 "POST" A x (resultHandler B salt "POST" A x s).2 =
        (⟨200, some R⟩, (resultHandler B salt "POST" A x s).2) := by
  have hgen : (GenerateFromPassword B salt x).getD "" = B.hash salt x := by
    simp [GenerateFromPassword, Nat.not_lt.mpr hx]
  obtain ⟨h1, h2⟩ := (resultLoop_found B salt A x s.Pairs _ hfind).1 rfl
  rw [hgen] at h2
  simp only at h1 h2
  have hset : (⟨A, R, B.hash salt x, true⟩ : Pair).Password ≠ "" := hB.1 salt x
  have hs1 : (resultHandler B salt "POST" A x s).2 =
      ⟨s.Members, (resultLoop B salt "POST" A x s.Pairs).2⟩ := by
    simp [resultHandler, hA]
  refine ⟨by simp [resultHandler, hA, h1], by rw [hs1]; exact h2, fun hrej => ?_, ?_⟩
  · obtain ⟨h3, h4⟩ := (resultLoop_found B salt1 A y _ _ h2).2 hset
    simp only [hrej, if_true] at h3
    rw [hs1]
    simp only [resultHandler, hA, if_false, h3, h4]
  · obtain ⟨h3, h4⟩ := (resultLoop_found B salt2 A x _ _ h2).2 hset
    simp only [hB.2 salt x hx, Bool.true_eq_false, if_false] at h3
    rw [hs1]
    simp only [resultHandler, hA, if_false, h3, h4]

/-- The behaviour C4 describes, where it holds: once the pair found for a giver
has a secret, no request to `resultHandler` for that giver changes the state. -/
theorem resultHandler_secret_kept (B : Bcrypt) (salt : Nat) (method giver password : String)
    (s : State) (p : Pair) (hfind : s.Pairs.find? (fun q => decide (q.Giver = giver)) = some p)
    (hset : p.Password ≠ "") :
    (resultHandler B salt method giver password s).2 = s := by
  unfold resultHandler
  split
  · rfl
  · by_cases hm : method = "POST"
    · subst hm
      rw [((resultLoop_found B salt giver password s.Pairs p hfind).2 hset).2]
    · rw [resultLoop_not_post B salt method giver password s.Pairs hm]

/-- The first reveal with a secret of at most 72 bytes, the empty one included,
sets a non-empty secret. -/
theorem resultHandler_secret_set (B : Bcrypt) (hB : B.Lawful) (salt : Nat) (giver x : String)
    (s : State) (p : Pair) (hg : giver ≠ "") (hx : x.utf8ByteSize ≤ 72)
    (hfind : s.Pairs.find? (fun q => decide (q.Giver = giver)) = some p)
    (hunset : p.Password = "") :
    ∃ q, (resultHandler B salt "POST" giver x s).2.Pairs.find?
        (fun q => decide (q.Giver = giver)) = some q ∧ q.Password = B.hash salt x ∧
      q.Password ≠ "" := by
  have hgen : (GenerateFromPassword B salt x).getD "" = B.hash salt x := by
    simp [GenerateFromPassword, Nat.not_lt.mpr hx]
  obtain ⟨_, h2⟩ := (resultLoop_found B salt giver x s.Pairs p hfind).1 hunset
  rw [hgen] at h2
  refine ⟨⟨p.Giver, p.Receiver, B.hash salt x, true⟩, ?_, rfl, hB.1 salt x⟩
  simp only [resultHandler, hg, if_false]
  exact h2

/-- C7, refuted as stated: a GET for a giver that no pair has is answered 404,
and a GET without giver is answered 400. -/
theorem resultHandler_get_unknown_giver :
    (resultHandler plainBcrypt 0 "GET" "Z" ""
        ⟨["A", "B"], [⟨"A", "B", "", false⟩, ⟨"B", "A", "", false⟩]⟩).1.status = 404 ∧
      (resultHandler plainBcrypt 0 "GET" "" ""
        ⟨["A", "B"], [⟨"A", "B", "", false⟩, ⟨"B", "A", "", false⟩]⟩).1.status = 400 := by
  decide

/-- C7, amended: a request to /api/result whose method is not POST is answered
400 when the giver parameter is empty, 404 when no pair has that giver and 405
when some pair has it; the state is unchanged in the three cases. -/
theorem resultHandler_not_post (B : Bcrypt) (salt : Nat) (method giver password : String)
    (s : State) (hm : method ≠ "POST") :
    resultHandler B salt method giver password s =
      (⟨if giver = "" then 400 else if ∃ p ∈ s.Pairs, p.Giver = giver then 405 else 404, none⟩,
        s) := by
  unfold resultHandler
  split
  · rfl
  · rw [resultLoop_not_post B salt method giver password s.Pairs hm]

/-- Witness of C7 amended: a GET for the giver `"A"` of a pair is answered 405. -/
theorem resultHandler_not_post_witness :
    "GET" ≠ "POST" ∧
      resultHandler plainBcrypt 0 "GET" "A" ""
          ⟨["A", "B"], [⟨"A", "B", "", false⟩, ⟨"B", "A", "", false⟩]⟩ =
        (⟨405, none⟩, ⟨["A", "B"], [⟨"A", "B", "", false⟩, ⟨"B", "A", "", false⟩]⟩) :=
  ⟨by decide,
    (resultHandler_not_post plainBcrypt 0 "GET" "A" ""
      ⟨["A", "B"], [⟨"A", "B", "", false⟩, ⟨"B", "A", "", false⟩]⟩ (by decide)).trans (by decide)⟩

/-! ## The claims on the handlers -/

theorem addHandler_some (fuel : Nat) (r : Rand) (saveOk : Bool) (method : String)
    (body : Option String) (s : State) (resp : Response) (s' : State)
    (h : addHandler fuel r saveOk method body s = some (resp, s')) :
    ((resp.status = 405 ∨ resp.status = 400) ∧ s' = s) ∨
      (∃ name, method = "POST" ∧ body = some name ∧ TrimSpace name ≠ "" ∧
        TrimSpace name ∉ s.Members ∧ resp = ⟨if saveOk then 200 else 500, none⟩ ∧
        drawAll fuel r ⟨s.Members ++ [TrimSpace name], []⟩ = some s') := by
  unfold addHandler at h
  split at h
  · cases Option.some.inj h
    exact Or.inl ⟨Or.inl rfl, rfl⟩
  · rename_i hm
    split at h
    · cases Option.some.inj h
      exact Or.inl ⟨Or.inr rfl, rfl⟩
    · rename_i name
      split at h
      · cases Option.some.inj h
        exact Or.inl ⟨Or.inr rfl, rfl⟩
      · rename_i hne
        split at h
        · cases Option.some.inj h
          exact Or.inl ⟨Or.inr rfl, rfl⟩
        · rename_i hnm
          cases hd : drawAll fuel r ⟨s.Members ++ [TrimSpace name], []⟩ with
          | none => simp [hd] at h
          | some s1 =>
            rw [hd] at h
            cases Option.some.inj h
            exact Or.inr ⟨name, not_not.mp hm, rfl, hne, hnm, rfl, hd⟩

/-- C5: for a POST to /api/add with a well-formed body, the answer is 400
exactly when the trimmed name is empty or already a member, and then it is
given whatever the shuffles; otherwise every answer appends the trimmed name
to the member list and is 200 when the final save succeeds, and the answer is
given as soon as the new list has fewer than two members or one of the first
`fuel` shuffles has no fixed point. -/
theorem addHandler_post (fuel : Nat) (r : Rand) (saveOk : Bool) (name : String) (s : State) :
    (∀ resp s', addHandler fuel r saveOk "POST" (some name) s = some (resp, s') →
        (resp.status = 400 ↔ (TrimSpace name = "" ∨ TrimSpace name ∈ s.Members))) ∧
      ((TrimSpace name = "" ∨ TrimSpace name ∈ s.Members) →
        addHandler fuel r saveOk "POST" (some name) s = some (⟨400, none⟩, s)) ∧
      (¬ (TrimSpace name = "" ∨ TrimSpace name ∈ s.Members) →
        ∀ resp s', addHandler fuel r saveOk "POST" (some name) s = some (resp, s') →
          s'.Members = s.Members ++ [TrimSpace name] ∧ (saveOk = true → resp.status = 200)) ∧
      (¬ (TrimSpace name = "" ∨ TrimSpace name ∈ s.Members) →
        ((s.Members ++ [TrimSpace name]).length < 2 ∨
          ∃ k, k < fuel ∧ fixedFree (s.Members ++ [TrimSpace name])
            (nthShuffle (s.Members ++ [TrimSpace name]) k r) = true) →
        ∃ s', addHandler fuel r saveOk "POST" (some name) s =
            some (⟨if saveOk then 200 else 500, none⟩, s') ∧
          s'.Members = s.Members ++ [TrimSpace name]) := by
  have hbad : (TrimSpace name = "" ∨ TrimSpace name ∈ s.Members) →
      addHandler fuel r saveOk "POST" (some name) s = some (⟨400, none⟩, s) := by
    intro hb
    unfold addHandler
    by_cases h0 : TrimSpace name = ""
    · simp [h0]
    · have hmem : TrimSpace name ∈ s.Members := hb.resolve_left h0
      simp [h0, hmem]
  have hgood : ¬ (TrimSpace name = "" ∨ TrimSpace name ∈ s.Members) →
      addHandler fuel r saveOk "POST" (some name) s =
        (drawAll fuel r ⟨s.Members ++ [TrimSpace name], []⟩).map
          (fun s' => (⟨if saveOk then 200 else 500, none⟩, s')) := by
    intro hb
    unfold addHandler
    simp only [not_or] at hb
    simp [hb.1, hb.2]
  refine ⟨fun resp s' h => ⟨fun h400 => ?_, fun hb => ?_⟩, hbad, fun hb resp s' h => ?_,
    fun hb hterm => ?_⟩
  · by_contra hb
    rw [hgood hb] at h
    cases hd : drawAll fuel r ⟨s.Members ++ [TrimSpace name], []⟩ with
    | none => simp [hd] at h
    | some s1 =>
      rw [hd] at h
      cases Option.some.inj h
      cases saveOk <;> simp at h400
  · rw [hbad hb] at h
    cases Option.some.inj h
    rfl
  · rw [hgood hb] at h
    cases hd : drawAll fuel r ⟨s.Members ++ [TrimSpace name], []⟩ with
    | none => simp [hd] at h
    | some s1 =>
      rw [hd] at h
      cases Option.some.inj h
      refine ⟨(drawAll_some fuel r _ _ hd).1, fun hs => ?_⟩
      simp [hs]
  · rw [hgood hb]
    have hret : ∃ s1, drawAll fuel r ⟨s.Members ++ [TrimSpace name], []⟩ = some s1 := by
      unfold drawAll
      simp only
      split
      · exact ⟨_, rfl⟩
      · rename_i hge
        rcases hterm with hlt | ⟨k, hk, hv⟩
        · exact absurd hlt hge
        · obtain ⟨pairs, hp⟩ := drawLoop_returns _ k r fuel hk hv
          rw [hp]
          exact ⟨_, rfl⟩
    obtain ⟨s1, hs1⟩ := hret
    rw [hs1]
    exact ⟨s1, rfl, (drawAll_some fuel r _ _ hs1).1⟩

/-- Witness of C5: `" C "` is added to the members `A`, `B`; the first shuffle
of the source has no fixed point. -/
theorem addHandler_post_witness :
    ∃ s', addHandler 1 ⟨fun _ => 0, 0⟩ true "POST" (some " C ")
          ⟨["A", "B"], [⟨"A", "B", "x", true⟩, ⟨"B", "A", "", false⟩]⟩ =
        some (⟨if true = true then 200 else 500, none⟩, s') ∧
      s'.Members = ["A", "B"] ++ [TrimSpace " C "] :=
  (addHandler_post 1 ⟨fun _ => 0, 0⟩ true " C "
    ⟨["A", "B"], [⟨"A", "B", "x", true⟩, ⟨"B", "A", "", false⟩]⟩).2.2.2 (by decide)
    (Or.inr ⟨0, by decide, by decide⟩)

/-- C6: a request to add, result or reset that is answered with a status 4xx
leaves the session state, members and pairs with their secrets and flags, as
it was. -/
theorem client_error_keeps_state (B : Bcrypt) (srv : Server) (req : Request) (s s' : State)
    (resp : Response) (h : step B srv req s = some (resp, s')) (h4 : 400 ≤ resp.status)
    (h5 : resp.status < 500) : s' = s := by
  cases req with
  | add fuel r saveOk method body =>
    rcases addHandler_some fuel r saveOk method body s resp s' h with ⟨_, hs⟩ | ⟨_, _, _, _, _, hr, _⟩
    · exact hs
    · subst hr
      cases saveOk <;> simp at h4 h5
  | result salt method giver password =>
    simp only [step, Option.some.injEq] at h
    unfold resultHandler at h
    split at h
    · exact (congrArg Prod.snd h).symm
    · have h1 : (resultLoop B salt method giver password s.Pairs).1 = resp := congrArg Prod.fst h
      have h2 : (⟨s.Members, (resultLoop B salt method giver password s.Pairs).2⟩ : State) = s' :=
        congrArg Prod.snd h
      have hne : (resultLoop B salt method giver password s.Pairs).1.status ≠ 200 := by
        rw [h1]
        omega
      rw [resultLoop_unchanged B salt method giver password s.Pairs hne] at h2
      exact h2.symm
  | reset saveOk method body =>
    cases srv with
    | redis =>
      simp only [step, Option.some.injEq] at h
      unfold resetHandler at h
      split at h
      · exact (congrArg Prod.snd h).symm
      · split at h
        · exact (congrArg Prod.snd h).symm
        · split at h
          · exact (congrArg Prod.snd h).symm
          · have h1 := congrArg Prod.fst h
            subst h1
            cases saveOk <;> simp at h4 h5
    | file =>
      simp only [step, Option.some.injEq] at h
      unfold Backend.resetHandler at h
      split at h
      · exact (congrArg Prod.snd h).symm
      · have h1 := congrArg Prod.fst h
        subst h1
        cases saveOk <;> simp at h4 h5

/-- Witness of C6: a reveal with a wrong secret is answered 403 and writes nothing. -/
theorem client_error_keeps_state_witness :
    step plainBcrypt Server.redis (Request.result 0 "POST" "A" "wrong")
        ⟨["A", "B"], [⟨"A", "B", "$2a$10$right", true⟩, ⟨"B", "A", "", false⟩]⟩ =
      some (⟨403, none⟩,
        ⟨["A", "B"], [⟨"A", "B", "$2a$10$right", true⟩, ⟨"B", "A", "", false⟩]⟩) ∧
    (⟨["A", "B"], [⟨"A", "B", "$2a$10$right", true⟩, ⟨"B", "A", "", false⟩]⟩ : State) =
      ⟨["A", "B"], [⟨"A", "B", "$2a$10$right", true⟩, ⟨"B", "A", "", false⟩]⟩ :=
  ⟨by decide,
    client_error_keeps_state plainBcrypt Server.redis (Request.result 0 "POST" "A" "wrong")
      ⟨["A", "B"], [⟨"A", "B", "$2a$10$right", true⟩, ⟨"B", "A", "", false⟩]⟩
      ⟨["A", "B"], [⟨"A", "B", "$2a$10$right", true⟩, ⟨"B", "A", "", false⟩]⟩
      ⟨403, none⟩ (by decide) (by decide) (by decide)⟩

/-- What the loop of `listHandler` leaves in `res`: the entries of the pairs
appended to what it started with, and a slice that is not nil as soon as there
is a pair. -/
theorem listLoop_eq (link : String) (ps : List Pair) (res : Option (List Entry)) :
    listLoop link ps res =
      if ps = [] then res
      else some (res.getD [] ++ ps.map (fun p => (⟨p.Giver, link ++ p.Giver⟩ : Entry))) := by
  induction ps generalizing res with
  | nil => simp [listLoop]
  | cons p ps ih =>
    rw [listLoop, ih]
    by_cases hps : ps = []
    · simp [hps]
    · simp [hps]

/-- The body written by `listHandler`: `null` without pairs, and the array of
one entry per pair, in order, otherwise. -/
theorem listHandler_body (s : State) :
    listHandler s =
      if s.Pairs = [] then Body.null
      else Body.array (s.Pairs.map (fun p => ⟨p.Giver, "./result.html?giver=" ++ p.Giver⟩)) := by
  unfold listHandler
  rw [listLoop_eq]
  by_cases hps : s.Pairs = []
  · simp [hps, Encode]
  · simp [hps, Encode]

/-- C8, refuted as stated: after an accepted reset of a state with two members,
the list request does not return the empty array; its body is `null`, on both
servers. -/
theorem listHandler_after_reset_null :
    listHandler (resetHandler true "POST" (some "avadakedavra")
        ⟨["A", "B"], [⟨"A", "B", "", false⟩, ⟨"B", "A", "", false⟩]⟩).2 ≠ Body.array [] ∧
      listHandler (resetHandler true "POST" (some "avadakedavra")
        ⟨["A", "B"], [⟨"A", "B", "", false⟩, ⟨"B", "A", "", false⟩]⟩).2 = Body.null ∧
      Backend.listHandler (Backend.resetHandler true "POST"
        ⟨["A", "B"], [⟨"A", "B", "", false⟩, ⟨"B", "A", "", false⟩]⟩).2 ≠ Body.array [] := by
  decide

/-- C8, amended: a POST reset, carrying the shared secret where `src/main.go`
asks for it, is answered 200 when the save succeeds and leaves the member list
and the pairs empty whether it succeeds or not; the list request made right
afterwards returns no entry, its body being the JSON value `null`.  The same
holds for the reset of `src/backend/main.go`. -/
theorem reset_clears (saveOk : Bool) (s : State) :
    resetHandler saveOk "POST" (some "avadakedavra") s =
        (⟨if saveOk then 200 else 500, none⟩, ⟨[], []⟩) ∧
      listHandler (resetHandler saveOk "POST" (some "avadakedavra") s).2 = Body.null ∧
      Backend.resetHandler saveOk "POST" s = (⟨if saveOk then 200 else 500, none⟩, ⟨[], []⟩) ∧
      Backend.listHandler (Backend.resetHandler saveOk "POST" s).2 = Body.null := by
  refine ⟨?_, ?_, ?_, ?_⟩ <;>
    simp [resetHandler, Backend.resetHandler, listHandler, Backend.listHandler, listLoop, Encode]

/-- C10: regeneration discards every secret.  After an add answered 200, after
a start-up of `src/main.go` that loads a state with at least two members, and
after the same start-up of `src/backend/main.go`, every pair has the empty
secret and `has_access = false`, whatever the state held before. -/
theorem regeneration_discards_secrets :
    (∀ fuel r saveOk method body s resp s',
        addHandler fuel r saveOk method body s = some (resp, s') → resp.status = 200 →
        ∀ p ∈ s'.Pairs, p.Password = "" ∧ p.HasAccess = false) ∧
      (∀ fuel r s s', 2 ≤ s.Members.length → main fuel r (Stored.document s) = some s' →
        s'.Members = s.Members ∧ ∀ p ∈ s'.Pairs, p.Password = "" ∧ p.HasAccess = false) ∧
      (∀ fuel r s s', 2 ≤ s.Members.length → Backend.init fuel r (some s) = some s' →
        s'.Members = s.Members ∧ ∀ p ∈ s'.Pairs, p.Password = "" ∧ p.HasAccess = false) := by
  refine ⟨fun fuel r saveOk method body s resp s' h h200 => ?_, fun fuel r s s' hn h => ?_,
    fun fuel r s s' hn h => ?_⟩
  · rcases addHandler_some fuel r saveOk method body s resp s' h with ⟨hst, _⟩ | ⟨_, _, _, _, _, _, hd⟩
    · omega
    · exact drawAll_fresh fuel r _ s' hd
  · have hd : drawAll fuel r s = some s' := by
      simpa [main, loadState, show 1 < s.Members.length by omega] using h
    exact ⟨(drawAll_some fuel r s s' hd).1, drawAll_fresh fuel r s s' hd⟩
  · have hd : drawAll fuel r s = some s' := by
      simpa [Backend.init, show 1 < s.Members.length by omega] using h
    exact ⟨(drawAll_some fuel r s s' hd).1, drawAll_fresh fuel r s s' hd⟩

/-- Witness of C10: a start-up that loads two members with a claimed secret. -/
theorem regeneration_discards_secrets_witness :
    main 1 ⟨fun _ => 0, 0⟩
        (Stored.document ⟨["A", "B"], [⟨"A", "B", "$2a$10$x", true⟩, ⟨"B", "A", "", false⟩]⟩) =
      some ⟨["A", "B"], [⟨"A", "B", "", false⟩, ⟨"B", "A", "", false⟩]⟩ ∧
    ((⟨"A", "B", "", false⟩ : Pair).Password = "" ∧ (⟨"A", "B", "", false⟩ : Pair).HasAccess = false) :=
  ⟨by decide,
    (regeneration_discards_secrets.2.1 1 ⟨fun _ => 0, 0⟩
      ⟨["A", "B"], [⟨"A", "B", "$2a$10$x", true⟩, ⟨"B", "A", "", false⟩]⟩
      ⟨["A", "B"], [⟨"A", "B", "", false⟩, ⟨"B", "A", "", false⟩]⟩ (by decide) (by decide)).2
      ⟨"A", "B", "", false⟩ (by decide)⟩

/-! ## The invariant of the session state -/

theorem step_invariant (B : Bcrypt) (srv : Server) (req : Request) (s s' : State)
    (resp : Response) (hinv : Invariant s) (h : step B srv req s = some (resp, s')) :
    Invariant s' := by
  cases req with
  | add fuel r saveOk method body =>
    rcases addHandler_some fuel r saveOk method body s resp s' h with
      ⟨_, hs⟩ | ⟨name, _, _, _, hnm, _, hd⟩
    · exact hs ▸ hinv
    · refine drawAll_invariant fuel r _ s' ?_ hd
      exact List.Nodup.append hinv.1 (List.nodup_singleton _)
        (List.disjoint_singleton.mpr hnm)
  | result salt method giver password =>
    simp only [step, Option.some.injEq] at h
    unfold resultHandler at h
    split at h
    · exact (pair_snd h) ▸ hinv
    · have h2 : (⟨s.Members, (resultLoop B salt method giver password s.Pairs).2⟩ : State) = s' :=
        congrArg Prod.snd h
      subst h2
      refine ⟨hinv.1, fun hlt => ?_, fun hge => ?_⟩
      · have hnil : s.Pairs = [] := hinv.2.1 hlt
        simp [hnil, resultLoop]
      · exact resultLoop_derangement B salt method giver password _ _ (hinv.2.2 hge)
  | reset saveOk method body =>
    have hempty : Invariant ⟨[], []⟩ :=
      ⟨List.nodup_nil, fun _ => rfl, fun hge => absurd hge (by simp)⟩
    cases srv with
    | redis =>
      simp only [step, Option.some.injEq] at h
      unfold resetHandler at h
      split at h
      · exact (pair_snd h) ▸ hinv
      · split at h
        · exact (pair_snd h) ▸ hinv
        · split at h
          · exact (pair_snd h) ▸ hinv
          · exact (pair_snd h) ▸ hempty
    | file =>
      simp only [step, Option.some.injEq] at h
      unfold Backend.resetHandler at h
      split at h
      · exact (pair_snd h) ▸ hinv
      · exact (pair_snd h) ▸ hempty

/-- C2: in every state reachable from the empty state by add, result and reset
requests, on either server, the member list has no duplicates, the pairs are
empty below two members, and from two members on there is one pair per member,
the givers being the members in order, the receivers a rearrangement of the
members, and no pair giving to itself. -/
theorem reachable_invariant (B : Bcrypt) (srv : Server) (s : State) (h : Reachable B srv s) :
    s.Members.Nodup ∧ (s.Members.length < 2 → s.Pairs = []) ∧
      (2 ≤ s.Members.length →
        s.Pairs.length = s.Members.length ∧ s.Pairs.map Pair.Giver = s.Members ∧
          (s.Pairs.map Pair.Receiver).Perm s.Members ∧ ∀ p ∈ s.Pairs, p.Giver ≠ p.Receiver) := by
  induction h with
  | empty => exact ⟨List.nodup_nil, fun _ => rfl, fun hge => absurd hge (by simp)⟩
  | serve req _ hstep ih => exact step_invariant B srv req _ _ _ ih hstep

/-- Witness of C2: the state reached by adding `"A"`, adding `"B"` and a first
reveal for `"A"`. -/
theorem reachable_invariant_witness :
    Reachable plainBcrypt Server.redis
        ⟨["A", "B"], [⟨"A", "B", "$2a$10$x", true⟩, ⟨"B", "A", "", false⟩]⟩ ∧
      (["A", "B"] : List String).Nodup ∧
      ([⟨"A", "B", "$2a$10$x", true⟩, ⟨"B", "A", "", false⟩] : List Pair).map Pair.Giver =
        ["A", "B"] :=
  have hr : Reachable plainBcrypt Server.redis
      ⟨["A", "B"], [⟨"A", "B", "$2a$10$x", true⟩, ⟨"B", "A", "", false⟩]⟩ :=
    Reachable.serve (Request.result 0 "POST" "A" "x")
      (Reachable.serve (Request.add 1 ⟨fun _ => 0, 0⟩ true "POST" (some "B"))
        (Reachable.serve (Request.add 1 ⟨fun _ => 0, 0⟩ true "POST" (some "A"))
          Reachable.empty
          (show step plainBcrypt Server.redis _ ⟨[], []⟩ = some (⟨200, none⟩, ⟨["A"], []⟩) by
            decide))
        (show step plainBcrypt Server.redis _ ⟨["A"], []⟩ =
            some (⟨200, none⟩, ⟨["A", "B"], [⟨"A", "B", "", false⟩, ⟨"B", "A", "", false⟩]⟩) by
          decide))
      (show step plainBcrypt Server.redis _
            ⟨["A", "B"], [⟨"A", "B", "", false⟩, ⟨"B", "A", "", false⟩]⟩ =
          some (⟨200, some "B"⟩,
            ⟨["A", "B"], [⟨"A", "B", "$2a$10$x", true⟩, ⟨"B", "A", "", false⟩]⟩) by
        decide)
  have h := reachable_invariant plainBcrypt Server.redis _ hr
  ⟨hr, h.1, (h.2.2 (by decide)).2.1⟩

end AmigoSecreto
